import Mathlib

/-!
A shallow embedding of the metrics core of Brace-Tracker
(`brace_tracker/metrics.py`): hourly normalization of raw temperature
readings, trailing-window day bucketing, and the usage classifier.

Modelling conventions:
* a Python `datetime` is a `Timestamp`: an absolute calendar-day index
  (as in `date.toordinal()`) plus bounded time-of-day fields; `datetime`
  comparison is the order of an injective integer encoding;
* Python `float` temperatures, thresholds and averages are `Rat`
  (the program only ever divides small integer counts);
* a Python `dict` is an insertion-ordered association list: updating an
  existing key keeps its position, a new key is appended at the end;
* `sorted` / `list.sort` (Timsort) is `List.insertionSort`, which is
  also a stable sort.
-/

/-- Model of a Python `datetime`: absolute calendar day plus time of day.
`day` counts calendar days like `date.toordinal()`. -/
structure Timestamp where
  day : Int
  hour : Fin 24
  minute : Fin 60
  second : Fin 60
  micro : Fin 1000000
deriving DecidableEq

namespace Timestamp

/-- Injective encoding of a timestamp onto one integer time axis;
`datetime` order is the order of this encoding. -/
def enc (t : Timestamp) : Int :=
  (((t.day * 24 + (t.hour.val : Int)) * 60 + (t.minute.val : Int)) * 60
      + (t.second.val : Int)) * 1000000
    + (t.micro.val : Int)

/-- `datetime` comparison (`<=`). -/
def le (a b : Timestamp) : Prop := a.enc ≤ b.enc

instance : DecidableRel le := fun a b => inferInstanceAs (Decidable (a.enc ≤ b.enc))

instance : IsTotal Timestamp le := ⟨fun a b => Int.le_total a.enc b.enc⟩

instance : IsTrans Timestamp le := ⟨fun _ _ _ h1 h2 => le_trans h1 h2⟩

theorem enc_injective : Function.Injective enc := by
  rintro ⟨d1, h1, m1, s1, u1⟩ ⟨d2, h2, m2, s2, u2⟩ heq
  simp only [enc] at heq
  have hh1 := h1.isLt
  have hh2 := h2.isLt
  have hm1 := m1.isLt
  have hm2 := m2.isLt
  have hs1 := s1.isLt
  have hs2 := s2.isLt
  have hu1 := u1.isLt
  have hu2 := u2.isLt
  have : d1 = d2 ∧ h1.val = h2.val ∧ m1.val = m2.val ∧ s1.val = s2.val ∧ u1.val = u2.val := by
    omega
  obtain ⟨hd, hh, hm, hs, hu⟩ := this
  simp [hd, Fin.ext hh, Fin.ext hm, Fin.ext hs, Fin.ext hu]

instance : IsAntisymm Timestamp le :=
  ⟨fun _ _ hab hba => enc_injective (le_antisymm hab hba)⟩

end Timestamp

/-- `datetime.replace(minute=0, second=0, microsecond=0)`. -/
def floorHour (t : Timestamp) : Timestamp := { t with minute := 0, second := 0, micro := 0 }

/-- `datetime.date()` as the calendar-day index. -/
def dateOf (t : Timestamp) : Int := t.day

/-- `io.RawRecord`: one parsed CSV row.  (`source_path`, a filesystem
path used only for presentation, is omitted: the metrics core never
reads it.) -/
structure RawRecord where
  device_id : String
  timestamp : Timestamp
  temperature : Rat
deriving DecidableEq

/-- `metrics.HourlyRecord`. -/
structure HourlyRecord where
  device_id : String
  hour : Timestamp
  temperature : Rat
deriving DecidableEq

/-- `metrics.DailyUsage` (the `day : date` field is the calendar-day index). -/
structure DailyUsage where
  day : Int
  hours_in_use : Nat
  below_threshold_hours : List Timestamp
  samples_present : Nat
  is_complete : Bool
deriving DecidableEq

/-- `metrics.DeviceUsage`. -/
structure DeviceUsage where
  device_id : String
  seven_day_average_hours_per_day : Rat
  overall_average_hours_per_day : Rat
  days : List DailyUsage
  threshold_met : Bool
  complete_days_last_seven : Nat
  complete_days_overall : Nat
deriving DecidableEq

/-- Association-list model of Python `dict` lookup. -/
def lookupA {α β : Type} [DecidableEq α] (k : α) : List (α × β) → Option β
  | [] => none
  | p :: rest => if p.1 = k then some p.2 else lookupA k rest

/-- Association-list model of Python `d[k] = v`: replace in place when the
key is present, append at the end otherwise (dicts keep insertion order). -/
def updateA {α β : Type} [DecidableEq α] (k : α) (v : β) : List (α × β) → List (α × β)
  | [] => [(k, v)]
  | p :: rest => if p.1 = k then (k, v) :: rest else p :: updateA k v rest

/-- The dict key used by `normalize_records`: `(record.device_id, floored)`. -/
def hkey (r : RawRecord) : String × Timestamp := (r.device_id, floorHour r.timestamp)

/-- The `HourlyRecord` stored by `normalize_records` for a raw record. -/
def toHourly (r : RawRecord) : HourlyRecord :=
  { device_id := r.device_id, hour := floorHour r.timestamp, temperature := r.temperature }

/-- One iteration of the `normalize_records` loop body. -/
def collapseStep (acc : List ((String × Timestamp) × HourlyRecord)) (r : RawRecord) :
    List ((String × Timestamp) × HourlyRecord) :=
  match lookupA (hkey r) acc with
  | none => updateA (hkey r) (toHourly r) acc
  | some existing =>
      if existing.temperature < r.temperature then updateA (hkey r) (toHourly r) acc else acc

/-- Python tuple comparison on `(device_id, hour)` sort keys. -/
def keyLE (a b : String × Timestamp) : Prop :=
  a.1 < b.1 ∨ (a.1 = b.1 ∧ Timestamp.le a.2 b.2)

instance : DecidableRel keyLE := fun _ _ => inferInstanceAs (Decidable (_ ∨ _))

instance : IsTotal (String × Timestamp) keyLE := by
  constructor
  intro a b
  rcases lt_trichotomy a.1 b.1 with h | h | h
  · exact Or.inl (Or.inl h)
  · rcases total_of Timestamp.le a.2 b.2 with h2 | h2
    · exact Or.inl (Or.inr ⟨h, h2⟩)
    · exact Or.inr (Or.inr ⟨h.symm, h2⟩)
  · exact Or.inr (Or.inl h)

instance : IsTrans (String × Timestamp) keyLE := by
  constructor
  rintro a b c (hab | ⟨hab, hab2⟩) (hbc | ⟨hbc, hbc2⟩)
  · exact Or.inl (lt_trans hab hbc)
  · exact Or.inl (hbc ▸ hab)
  · exact Or.inl (hab ▸ hbc)
  · exact Or.inr ⟨hab.trans hbc, Trans.trans hab2 hbc2⟩

/-- The sort key order used by `normalize_records`: `(r.device_id, r.hour)`. -/
def recKeyLE (a b : HourlyRecord) : Prop := keyLE (a.device_id, a.hour) (b.device_id, b.hour)

instance : DecidableRel recKeyLE := fun a b =>
  inferInstanceAs (Decidable (keyLE (a.device_id, a.hour) (b.device_id, b.hour)))

instance : IsTotal HourlyRecord recKeyLE :=
  ⟨fun a b => total_of keyLE (a.device_id, a.hour) (b.device_id, b.hour)⟩

instance : IsTrans HourlyRecord recKeyLE :=
  ⟨fun _ _ _ h1 h2 => trans_of keyLE h1 h2⟩

/-- `metrics.normalize_records`: collapse raw readings to one record per
device/hour, keeping the maximum temperature, then sort by `(device, hour)`. -/
def normalize_records (records : List RawRecord) : List HourlyRecord :=
  List.insertionSort recKeyLE ((records.foldl collapseStep []).map Prod.snd)

/-- Was the hour in use?  `record.temperature > temperature_threshold`. -/
def inUse (temperature_threshold : Rat) (r : HourlyRecord) : Bool :=
  decide (temperature_threshold < r.temperature)

/-- One iteration of the per-device grouping loop of `compute_device_usage`:
`per_device.setdefault(record.device_id, []).append(record)`. -/
def groupStep (acc : List (String × List HourlyRecord)) (r : HourlyRecord) :
    List (String × List HourlyRecord) :=
  match lookupA r.device_id acc with
  | none => updateA r.device_id [r] acc
  | some l => updateA r.device_id (l ++ [r]) acc

/-- Sort order on the records of one device: `key=lambda r: r.hour`. -/
def hourLE (a b : HourlyRecord) : Prop := Timestamp.le a.hour b.hour

instance : DecidableRel hourLE := fun a b =>
  inferInstanceAs (Decidable (Timestamp.le a.hour b.hour))

instance : IsTotal HourlyRecord hourLE := ⟨fun a b => total_of Timestamp.le a.hour b.hour⟩

instance : IsTrans HourlyRecord hourLE :=
  ⟨fun _ _ _ h1 h2 => trans_of Timestamp.le h1 h2⟩

/-- Order of `sorted(per_device.items())`: device ids are unique dict keys,
so the tuple comparison never reaches the second component. -/
def devLE (a b : String × List HourlyRecord) : Prop := a.1 ≤ b.1

instance : DecidableRel devLE := fun a b => inferInstanceAs (Decidable (a.1 ≤ b.1))

instance : IsTotal (String × List HourlyRecord) devLE := ⟨fun a b => le_total a.1 b.1⟩

instance : IsTrans (String × List HourlyRecord) devLE := ⟨fun _ _ _ h1 h2 => le_trans h1 h2⟩

/-- The `hours_in_use_by_day` dict of `_summarize_device`, modelled by its
defining property: the count accumulated for a day is the number of records
of that day whose temperature strictly exceeds the threshold (absent days
read as the dict default `0`). -/
def hours_in_use_by_day (temperature_threshold : Rat) (records : List HourlyRecord)
    (d : Int) : Nat :=
  (records.filter (fun r => decide (dateOf r.hour = d) && inUse temperature_threshold r)).length

/-- The `below_threshold_by_day` dict of `_summarize_device`: the hour
instants of that day's not-in-use records, appended in iteration order
(absent days read as the dict default, the empty tuple). -/
def below_threshold_by_day (temperature_threshold : Rat) (records : List HourlyRecord)
    (d : Int) : List Timestamp :=
  (records.filter (fun r => decide (dateOf r.hour = d) && !inUse temperature_threshold r)).map
    (·.hour)

/-- One `DailyUsage` entry of the window loop of `_summarize_device`. -/
def mkDailyUsage (temperature_threshold : Rat) (records : List HourlyRecord)
    (target_day : Int) : DailyUsage :=
  { day := target_day
    hours_in_use := hours_in_use_by_day temperature_threshold records target_day
    below_threshold_hours :=
      List.insertionSort Timestamp.le (below_threshold_by_day temperature_threshold records target_day)
    samples_present :=
      hours_in_use_by_day temperature_threshold records target_day
        + (List.insertionSort Timestamp.le
            (below_threshold_by_day temperature_threshold records target_day)).length
    is_complete :=
      (hours_in_use_by_day temperature_threshold records target_day
        + (List.insertionSort Timestamp.le
            (below_threshold_by_day temperature_threshold records target_day)).length) == 24 }

/-- The `window` list of `_summarize_device`: for `offset in range(window_days)`,
the bucket of day `anchor_day - (window_days - 1 - offset)`. -/
def windowFor (temperature_threshold : Rat) (records : List HourlyRecord)
    (anchor_day window_days : Int) : List DailyUsage :=
  (List.range window_days.toNat).map fun (offset : Nat) =>
    mkDailyUsage temperature_threshold records (anchor_day - (window_days - 1 - (offset : Int)))

/-- `sum(1 for day in l if day.is_complete)`. -/
def completeCount (l : List DailyUsage) : Nat := (l.filter (·.is_complete)).length

/-- `sum(day.hours_in_use for day in l if day.is_complete)`. -/
def completeHours (l : List DailyUsage) : Nat :=
  ((l.filter (·.is_complete)).map (·.hours_in_use)).sum

/-- `total / complete if complete else 0.0`: the guarded average. -/
def avgOver (l : List DailyUsage) : Rat :=
  if completeCount l = 0 then 0 else (completeHours l : Rat) / (completeCount l : Rat)

/-- `window[-min(7, len(window)):] if window else []`: the trailing
at-most-seven-day sub-window. -/
def recentOf (window : List DailyUsage) : List DailyUsage :=
  window.drop (window.length - min 7 window.length)

/-- `metrics._summarize_device`. -/
def _summarize_device (device_id : String) (records : List HourlyRecord)
    (usage_threshold temperature_threshold : Rat) (window_days : Int) : DeviceUsage :=
  match records.getLast? with
  | none =>
      { device_id := device_id
        seven_day_average_hours_per_day := 0
        overall_average_hours_per_day := 0
        days := []
        threshold_met := false
        complete_days_last_seven := 0
        complete_days_overall := 0 }
  | some lastRec =>
      let window := windowFor temperature_threshold records (dateOf lastRec.hour) window_days
      { device_id := device_id
        seven_day_average_hours_per_day := avgOver (recentOf window)
        overall_average_hours_per_day := avgOver window
        days := window
        threshold_met :=
          decide (0 < completeCount (recentOf window))
            && decide (usage_threshold ≤ avgOver (recentOf window))
        complete_days_last_seven := completeCount (recentOf window)
        complete_days_overall := completeCount window }

/-- `metrics.compute_device_usage`: group by device, sort devices by id,
sort each device by hour, summarize each. -/
def compute_device_usage (hourly_records : List HourlyRecord)
    (usage_threshold temperature_threshold : Rat) (window_days : Int) : List DeviceUsage :=
  let per_device := hourly_records.foldl groupStep []
  (List.insertionSort devLE per_device).map fun p =>
    _summarize_device p.1 (List.insertionSort hourLE p.2)
      usage_threshold temperature_threshold window_days

/-- Reinterpret a normalized `HourlyRecord` as a raw reading whose
timestamp is its (already hour-floored) hour instant. -/
def asRaw (h : HourlyRecord) : RawRecord :=
  { device_id := h.device_id, timestamp := h.hour, temperature := h.temperature }

/-- The running best the `normalize_records` loop keeps for one key:
replace only on strictly greater temperature. -/
def pickStep (acc : Option RawRecord) (r : RawRecord) : Option RawRecord :=
  match acc with
  | none => some r
  | some b => if b.temperature < r.temperature then some r else some b

/-- The raw record the loop retains for one key group. -/
def pickFirstMax (l : List RawRecord) : Option RawRecord := l.foldl pickStep none

/-- Every entry the `normalize_records` dict holds carries exactly its
key's device and (floored) hour. -/
def goodEntry (p : (String × Timestamp) × HourlyRecord) : Prop :=
  p.2.device_id = p.1.1 ∧ p.2.hour = p.1.2 ∧ floorHour p.1.2 = p.1.2

/-- Modelled from the spec (section 4.2 step 6): the rolling average over a
list of day buckets is the sum of in-use hours over complete days divided
by the number of complete days, and `0` when there are none; a day is
complete exactly when `samples_present == 24`. -/
def specAverage (l : List DailyUsage) : Rat :=
  if (l.filter (fun du => du.samples_present == 24)).length = 0 then 0
  else ((((l.filter (fun du => du.samples_present == 24)).map (·.hours_in_use)).sum : Nat) : Rat)
    / (((l.filter (fun du => du.samples_present == 24)).length : Rat))

section AssocLemmas

variable {α β : Type} [DecidableEq α]

theorem lookupA_updateA_self (k : α) (v : β) (l : List (α × β)) :
    lookupA k (updateA k v l) = some v := by
  induction l with
  | nil => simp [updateA, lookupA]
  | cons p rest ih =>
      by_cases h : p.1 = k
      · simp [updateA, h, lookupA]
      · simp [updateA, h, lookupA, ih]

theorem lookupA_updateA_ne {k k2 : α} (h : k2 ≠ k) (v : β) (l : List (α × β)) :
    lookupA k2 (updateA k v l) = lookupA k2 l := by
  have hk : ¬ k = k2 := fun e => h e.symm
  induction l with
  | nil => simp [updateA, lookupA, hk]
  | cons p rest ih =>
      by_cases hp : p.1 = k
      · have hp2 : ¬ p.1 = k2 := fun e => hk (hp ▸ e)
        rw [updateA, if_pos hp]
        rw [lookupA, if_neg hk, lookupA, if_neg hp2]
      · rw [updateA, if_neg hp]
        rw [lookupA, lookupA, ih]

theorem mem_updateA {p : α × β} {k : α} {v : β} {l : List (α × β)} :
    p ∈ updateA k v l → p = (k, v) ∨ p ∈ l := by
  induction l with
  | nil => simp [updateA]
  | cons q rest ih =>
      by_cases hq : q.1 = k
      · rw [updateA, if_pos hq]
        simp only [List.mem_cons]
        rintro (h | h)
        · exact Or.inl h
        · exact Or.inr (Or.inr h)
      · rw [updateA, if_neg hq]
        simp only [List.mem_cons]
        rintro (h | h)
        · exact Or.inr (Or.inl h)
        · rcases ih h with h2 | h2
          · exact Or.inl h2
          · exact Or.inr (Or.inr h2)

theorem fst_mem_updateA {x k : α} {v : β} {l : List (α × β)} :
    x ∈ (updateA k v l).map Prod.fst → x = k ∨ x ∈ l.map Prod.fst := by
  intro hx
  rcases List.mem_map.1 hx with ⟨p, hp, hpx⟩
  rcases mem_updateA hp with h | h
  · left; rw [← hpx, h]
  · right; exact hpx ▸ List.mem_map_of_mem Prod.fst h

theorem nodup_keys_updateA {k : α} {v : β} {l : List (α × β)}
    (h : (l.map Prod.fst).Nodup) : ((updateA k v l).map Prod.fst).Nodup := by
  induction l with
  | nil => simp [updateA]
  | cons p rest ih =>
      simp only [List.map_cons, List.nodup_cons] at h
      by_cases hp : p.1 = k
      · rw [updateA, if_pos hp]
        simp only [List.map_cons, List.nodup_cons]
        exact ⟨hp ▸ h.1, h.2⟩
      · rw [updateA, if_neg hp]
        simp only [List.map_cons, List.nodup_cons]
        refine ⟨fun hmem => ?_, ih h.2⟩
        rcases fst_mem_updateA hmem with h2 | h2
        · exact hp h2
        · exact h.1 h2

theorem lookupA_eq_none {k : α} {l : List (α × β)} :
    lookupA k l = none ↔ k ∉ l.map Prod.fst := by
  induction l with
  | nil => simp [lookupA]
  | cons p rest ih =>
      by_cases hp : p.1 = k
      · rw [lookupA, if_pos hp]
        simp [hp]
      · rw [lookupA, if_neg hp, ih]
        simp only [List.map_cons, List.mem_cons]
        constructor
        · intro h h2
          rcases h2 with h2 | h2
          · exact hp h2.symm
          · exact h h2
        · intro h h2
          exact h (Or.inr h2)

theorem lookupA_mem {k : α} {v : β} {l : List (α × β)} :
    lookupA k l = some v → (k, v) ∈ l := by
  induction l with
  | nil => simp [lookupA]
  | cons p rest ih =>
      by_cases hp : p.1 = k
      · rw [lookupA, if_pos hp]
        intro h
        have hpv : p = (k, v) := by
          obtain ⟨p1, p2⟩ := p
          simp only at hp
          have hv := Option.some.inj h
          simp only at hv
          rw [hp, hv]
        exact List.mem_cons.2 (Or.inl hpv.symm)
      · rw [lookupA, if_neg hp]
        intro h
        exact List.mem_cons_of_mem _ (ih h)

theorem mem_lookupA {k : α} {v : β} {l : List (α × β)}
    (hnd : (l.map Prod.fst).Nodup) (hmem : (k, v) ∈ l) : lookupA k l = some v := by
  induction l with
  | nil => simp at hmem
  | cons p rest ih =>
      simp only [List.map_cons, List.nodup_cons] at hnd
      rcases List.mem_cons.1 hmem with h | h
      · simp [lookupA, ← h]
      · have hp : p.1 ≠ k := by
          intro e
          exact hnd.1 (e ▸ List.mem_map_of_mem Prod.fst h)
        simp [lookupA, hp, ih hnd.2 h]

theorem updateA_of_not_mem {k : α} {v : β} {l : List (α × β)}
    (h : k ∉ l.map Prod.fst) : updateA k v l = l ++ [(k, v)] := by
  induction l with
  | nil => simp [updateA]
  | cons p rest ih =>
      simp only [List.map_cons, List.mem_cons] at h
      push_neg at h
      have hp : ¬ p.1 = k := fun e => h.1 e.symm
      rw [updateA, if_neg hp, ih h.2]
      simp

theorem filter_key_eq_singleton {k : α} {v : β} {l : List (α × β)}
    (hnd : (l.map Prod.fst).Nodup) (hmem : (k, v) ∈ l) :
    l.filter (fun q => decide (q.1 = k)) = [(k, v)] := by
  induction l with
  | nil => simp at hmem
  | cons p rest ih =>
      simp only [List.map_cons, List.nodup_cons] at hnd
      rcases List.mem_cons.1 hmem with h | h
      · have hrest : rest.filter (fun q => decide (q.1 = k)) = [] := by
          rw [List.filter_eq_nil]
          intro q hq hdec
          have hqk : q.1 = k := of_decide_eq_true hdec
          have hpk : p.1 = k := by rw [← h]
          refine hnd.1 ?_
          rw [hpk, ← hqk]
          exact List.mem_map_of_mem Prod.fst hq
        simp [List.filter_cons, ← h, hrest]
      · have hp : p.1 ≠ k := by
          intro e
          exact hnd.1 (e ▸ List.mem_map_of_mem Prod.fst h)
        simp [List.filter_cons, hp, ih hnd.2 h]

end AssocLemmas

theorem pickFirstMax_append_singleton (l : List RawRecord) (r : RawRecord) :
    pickFirstMax (l ++ [r]) = pickStep (pickFirstMax l) r := by
  simp [pickFirstMax, List.foldl_append]

theorem pickFirstMax_isSome_aux (l : List RawRecord) (b : RawRecord) :
    ∃ c, l.foldl pickStep (some b) = some c := by
  induction l generalizing b with
  | nil => exact ⟨b, rfl⟩
  | cons a l ih =>
      rw [List.foldl_cons]
      by_cases h : b.temperature < a.temperature
      · rw [show pickStep (some b) a = some a by simp [pickStep, h]]
        exact ih a
      · rw [show pickStep (some b) a = some b by simp [pickStep, h]]
        exact ih b

theorem pickFirstMax_eq_none {l : List RawRecord} :
    pickFirstMax l = none ↔ l = [] := by
  cases l with
  | nil => simp [pickFirstMax]
  | cons a l =>
      simp only [pickFirstMax, List.foldl_cons]
      rw [show pickStep none a = some a from rfl]
      rcases pickFirstMax_isSome_aux l a with ⟨c, hc⟩
      simp [hc]

theorem pickFirstMax_spec {l : List RawRecord} {r : RawRecord}
    (h : pickFirstMax l = some r) :
    ∃ pre post, l = pre ++ r :: post ∧ (∀ x ∈ pre, x.temperature < r.temperature) ∧
      ∀ x ∈ post, x.temperature ≤ r.temperature := by
  induction l using List.reverseRecOn generalizing r with
  | nil => simp [pickFirstMax] at h
  | append_singleton l x ih =>
      rw [pickFirstMax_append_singleton] at h
      cases hb : pickFirstMax l with
      | none =>
          rw [hb] at h
          have hl : l = [] := pickFirstMax_eq_none.1 hb
          rw [show pickStep none x = some x from rfl] at h
          have hrx : r = x := (Option.some.inj h).symm
          exact ⟨[], [], by simp [hl, hrx], by simp, by simp⟩
      | some b =>
          rw [hb] at h
          rcases ih hb with ⟨pre, post, hdec, hpre, hpost⟩
          by_cases hlt : b.temperature < x.temperature
          · rw [show pickStep (some b) x = some x by simp [pickStep, hlt]] at h
            have hrx : r = x := (Option.some.inj h).symm
            refine ⟨l, [], by simp [hrx], ?_, by simp⟩
            intro y hy
            rw [hrx, hdec] at *
            rcases List.mem_append.1 hy with hy2 | hy2
            · exact lt_trans (hpre y hy2) hlt
            · rcases List.mem_cons.1 hy2 with hy3 | hy3
              · rw [hy3]
                exact hlt
              · exact lt_of_le_of_lt (hpost y hy3) hlt
          · rw [show pickStep (some b) x = some b by simp [pickStep, hlt]] at h
            have hrb : r = b := (Option.some.inj h).symm
            subst hrb
            refine ⟨pre, post ++ [x], by simp [hdec], hpre, ?_⟩
            intro y hy
            rcases List.mem_append.1 hy with hy2 | hy2
            · exact hpost y hy2
            · have hyx : y = x := by simpa using hy2
              rw [hyx]
              exact le_of_not_lt hlt

/-- Shape of one `normalize_records` loop iteration. -/
theorem collapseStep_cases (acc : List ((String × Timestamp) × HourlyRecord)) (r : RawRecord) :
    collapseStep acc r = updateA (hkey r) (toHourly r) acc ∨ collapseStep acc r = acc := by
  unfold collapseStep
  cases lookupA (hkey r) acc with
  | none => exact Or.inl rfl
  | some e =>
      by_cases hc : e.temperature < r.temperature
      · exact Or.inl (if_pos hc)
      · exact Or.inr (if_neg hc)

theorem collapse_inv (records : List RawRecord)
    (acc : List ((String × Timestamp) × HourlyRecord))
    (hgood : ∀ p ∈ acc, goodEntry p) (hnd : (acc.map Prod.fst).Nodup) :
    (∀ p ∈ records.foldl collapseStep acc, goodEntry p) ∧
      ((records.foldl collapseStep acc).map Prod.fst).Nodup := by
  induction records generalizing acc with
  | nil => exact ⟨hgood, hnd⟩
  | cons r rs ih =>
      rw [List.foldl_cons]
      rcases collapseStep_cases acc r with hstep | hstep <;> rw [hstep]
      · apply ih
        · intro p hp
          rcases mem_updateA hp with h | h
          · subst h
            exact ⟨rfl, rfl, rfl⟩
          · exact hgood p h
        · exact nodup_keys_updateA hnd
      · exact ih acc hgood hnd

/-- Effect of one `normalize_records` loop iteration on a lookup. -/
theorem lookupA_collapseStep (acc : List ((String × Timestamp) × HourlyRecord))
    (r : RawRecord) (k : String × Timestamp) :
    lookupA k (collapseStep acc r) =
      if hkey r = k then
        (match lookupA k acc with
          | none => some (toHourly r)
          | some e => if e.temperature < r.temperature then some (toHourly r) else some e)
      else lookupA k acc := by
  by_cases hk : hkey r = k
  · rw [if_pos hk, ← hk]
    unfold collapseStep
    cases hl : lookupA (hkey r) acc with
    | none => exact lookupA_updateA_self _ _ _
    | some e =>
        show lookupA (hkey r)
            (if e.temperature < r.temperature then updateA (hkey r) (toHourly r) acc else acc) =
          if e.temperature < r.temperature then some (toHourly r) else some e
        by_cases hc : e.temperature < r.temperature
        · rw [if_pos hc, if_pos hc]
          exact lookupA_updateA_self _ _ _
        · rw [if_neg hc, if_neg hc]
          exact hl
  · rw [if_neg hk]
    rcases collapseStep_cases acc r with hstep | hstep
    · rw [hstep]
      exact lookupA_updateA_ne (fun e => hk e.symm) _ _
    · rw [hstep]

/-- The dict built by the `normalize_records` loop holds, at each key, the
first raw record of that key group attaining the group's maximum
temperature, converted to an `HourlyRecord`. -/
theorem lookupA_collapse (records : List RawRecord) (k : String × Timestamp) :
    lookupA k (records.foldl collapseStep []) =
      Option.map toHourly (pickFirstMax (records.filter (fun x => decide (hkey x = k)))) := by
  induction records using List.reverseRecOn with
  | nil => rfl
  | append_singleton rs r ih =>
      rw [List.foldl_append, List.foldl_cons, List.foldl_nil, List.filter_append,
        lookupA_collapseStep]
      by_cases hk : hkey r = k
      · have hfr : List.filter (fun x => decide (hkey x = k)) [r] = [r] := by simp [hk]
        rw [if_pos hk, hfr, pickFirstMax_append_singleton, ih]
        cases hpfm : pickFirstMax (rs.filter fun x => decide (hkey x = k)) with
        | none => rfl
        | some b =>
            by_cases hc : b.temperature < r.temperature
            · rw [show pickStep (some b) r = some r by simp [pickStep, hc]]
              show (if (toHourly b).temperature < r.temperature then some (toHourly r)
                  else some (toHourly b)) = Option.map toHourly (some r)
              rw [if_pos (show (toHourly b).temperature < r.temperature from hc)]
              rfl
            · rw [show pickStep (some b) r = some b by simp [pickStep, hc]]
              show (if (toHourly b).temperature < r.temperature then some (toHourly r)
                  else some (toHourly b)) = Option.map toHourly (some b)
              rw [if_neg (show ¬ (toHourly b).temperature < r.temperature from hc)]
              rfl
      · have hfr : List.filter (fun x => decide (hkey x = k)) [r] = [] := by simp [hk]
        rw [if_neg hk, hfr, List.append_nil, ih]

theorem collapse_goodEntry (records : List RawRecord) :
    (∀ p ∈ records.foldl collapseStep [], goodEntry p) ∧
      ((records.foldl collapseStep []).map Prod.fst).Nodup :=
  collapse_inv records [] (by simp) (by simp)

/-- In the sorted normalizer output, the (unique) record carrying key `k`
is the first raw record of the `k` group attaining the maximum
temperature. -/
theorem normalize_filter_key (records : List RawRecord) (k : String × Timestamp)
    {r : RawRecord}
    (hr : pickFirstMax (records.filter (fun x => decide (hkey x = k))) = some r) :
    (normalize_records records).filter (fun h => decide ((h.device_id, h.hour) = k))
      = [toHourly r] := by
  have hlk : lookupA k (records.foldl collapseStep []) = some (toHourly r) := by
    rw [lookupA_collapse, hr]
    rfl
  obtain ⟨hgood, hnd⟩ := collapse_goodEntry records
  have hmem : (k, toHourly r) ∈ records.foldl collapseStep [] := lookupA_mem hlk
  have hperm : List.Perm
      ((normalize_records records).filter (fun h => decide ((h.device_id, h.hour) = k)))
      (((records.foldl collapseStep []).map Prod.snd).filter
          (fun h => decide ((h.device_id, h.hour) = k))) :=
    (List.perm_insertionSort recKeyLE _).filter _
  have hfm : ((records.foldl collapseStep []).map Prod.snd).filter
        (fun h => decide ((h.device_id, h.hour) = k))
      = ((records.foldl collapseStep []).filter (fun q => decide (q.1 = k))).map Prod.snd := by
    rw [List.filter_map]
    congr 1
    apply List.filter_congr
    intro q hq
    obtain ⟨h1, h2, _⟩ := hgood q hq
    simp [Function.comp, h1, h2]
  rw [hfm, filter_key_eq_singleton hnd hmem] at hperm
  exact List.perm_singleton.1 hperm

/-- The normalizer output is sorted by `(device_id, hour)`. -/
theorem normalize_sorted (records : List RawRecord) :
    (normalize_records records).Sorted recKeyLE :=
  List.sorted_insertionSort recKeyLE _

/-- Every hour instant emitted by the normalizer is already floored. -/
theorem normalize_hours_floored (records : List RawRecord) (h : HourlyRecord)
    (hm : h ∈ normalize_records records) : floorHour h.hour = h.hour := by
  have hm2 : h ∈ (records.foldl collapseStep []).map Prod.snd :=
    (List.mem_insertionSort recKeyLE).1 hm
  rcases List.mem_map.1 hm2 with ⟨q, hq, hqe⟩
  obtain ⟨_, hb, hc⟩ := (collapse_goodEntry records).1 q hq
  rw [← hqe, hb]
  exact hc

/-- The normalizer emits at most one record per `(device, hour)` key. -/
theorem normalize_keys_nodup (records : List RawRecord) :
    ((normalize_records records).map (fun h => (h.device_id, h.hour))).Nodup := by
  obtain ⟨hgood, hnd⟩ := collapse_goodEntry records
  have h1 : ((records.foldl collapseStep []).map Prod.snd).map (fun h => (h.device_id, h.hour))
      = (records.foldl collapseStep []).map Prod.fst := by
    rw [List.map_map]
    apply List.map_congr_left
    intro q hq
    obtain ⟨ha, hb, _⟩ := hgood q hq
    simp [Function.comp, ha, hb]
  have hperm : List.Perm
      ((normalize_records records).map (fun h => (h.device_id, h.hour)))
      (((records.foldl collapseStep []).map Prod.snd).map (fun h => (h.device_id, h.hour))) :=
    (List.perm_insertionSort recKeyLE _).map _
  rw [h1] at hperm
  exact hperm.nodup_iff.2 hnd

/-- Feeding a collection whose `hkey`s are pairwise distinct through the
collapsing loop copies it into the dict unchanged. -/
theorem collapse_of_distinct_keys (rs : List RawRecord) (hnd : (rs.map hkey).Nodup) :
    rs.foldl collapseStep [] = rs.map (fun r => (hkey r, toHourly r)) := by
  induction rs using List.reverseRecOn with
  | nil => rfl
  | append_singleton l r ih =>
      rw [List.map_append] at hnd
      have hnd1 : (l.map hkey).Nodup := hnd.of_append_left
      have hnotin : hkey r ∉ l.map hkey := by
        intro hmem
        exact List.disjoint_of_nodup_append hnd hmem (by simp)
      rw [List.foldl_append, List.foldl_cons, List.foldl_nil, ih hnd1, List.map_append]
      have hlk : lookupA (hkey r) (l.map fun x => (hkey x, toHourly x)) = none := by
        rw [lookupA_eq_none, List.map_map]
        simpa [Function.comp] using hnotin
      unfold collapseStep
      rw [hlk]
      exact updateA_of_not_mem (by rw [List.map_map]; simpa [Function.comp] using hnotin)

/-- Re-collapsing the normalizer output is a copy, and re-sorting it is a
no-op: the two facts behind idempotence. -/
theorem normalize_records_asRaw (records : List RawRecord) :
    normalize_records ((normalize_records records).map asRaw) = normalize_records records := by
  have hfl := normalize_hours_floored records
  have hknd := normalize_keys_nodup records
  have hkeys : ((normalize_records records).map asRaw).map hkey
      = (normalize_records records).map (fun h => (h.device_id, h.hour)) := by
    rw [List.map_map]
    apply List.map_congr_left
    intro h hm
    show (h.device_id, floorHour h.hour) = (h.device_id, h.hour)
    rw [hfl h hm]
  have hnd2 : (((normalize_records records).map asRaw).map hkey).Nodup := by
    rw [hkeys]
    exact hknd
  show List.insertionSort recKeyLE
      ((((normalize_records records).map asRaw).foldl collapseStep []).map Prod.snd)
    = normalize_records records
  rw [collapse_of_distinct_keys _ hnd2]
  have hmap : ((((normalize_records records).map asRaw).map
        (fun r => (hkey r, toHourly r))).map Prod.snd) = normalize_records records := by
    rw [List.map_map, List.map_map]
    have hpt : ∀ h ∈ normalize_records records,
        ((Prod.snd ∘ fun r => (hkey r, toHourly r)) ∘ asRaw) h = id h := by
      intro h hm
      show (⟨h.device_id, floorHour h.hour, h.temperature⟩ : HourlyRecord) = h
      rw [hfl h hm]
    rw [List.map_congr_left hpt, List.map_id]
  rw [hmap]
  exact List.Sorted.insertionSort_eq (normalize_sorted records)

/-- Effect of one grouping iteration on a lookup. -/
theorem lookupA_groupStep (acc : List (String × List HourlyRecord)) (r : HourlyRecord)
    (d : String) :
    lookupA d (groupStep acc r) =
      if r.device_id = d then
        (match lookupA d acc with
          | none => some [r]
          | some g => some (g ++ [r]))
      else lookupA d acc := by
  by_cases hd : r.device_id = d
  · rw [if_pos hd, ← hd]
    unfold groupStep
    cases hl : lookupA r.device_id acc with
    | none => exact lookupA_updateA_self _ _ _
    | some g => exact lookupA_updateA_self _ _ _
  · rw [if_neg hd]
    unfold groupStep
    cases lookupA r.device_id acc with
    | none => exact lookupA_updateA_ne (fun e => hd e.symm) _ _
    | some g => exact lookupA_updateA_ne (fun e => hd e.symm) _ _

/-- The per-device dict holds, at each device id, exactly the records of
that device in input order. -/
theorem lookupA_group (rs : List HourlyRecord) (d : String) :
    lookupA d (rs.foldl groupStep []) =
      if rs.filter (fun r => decide (r.device_id = d)) = [] then none
      else some (rs.filter (fun r => decide (r.device_id = d))) := by
  induction rs using List.reverseRecOn with
  | nil => simp [lookupA]
  | append_singleton l r ih =>
      rw [List.foldl_append, List.foldl_cons, List.foldl_nil, List.filter_append,
        lookupA_groupStep, ih]
      by_cases hd : r.device_id = d
      · have hfr : List.filter (fun x => decide (x.device_id = d)) [r] = [r] := by simp [hd]
        rw [if_pos hd, hfr]
        by_cases hfl : l.filter (fun x => decide (x.device_id = d)) = []
        · rw [if_pos hfl, hfl]
          simp
        · rw [if_neg hfl]
          show some (l.filter (fun x => decide (x.device_id = d)) ++ [r])
            = if l.filter (fun x => decide (x.device_id = d)) ++ [r] = [] then none
              else some (l.filter (fun x => decide (x.device_id = d)) ++ [r])
          rw [if_neg (by simp)]
      · have hfr : List.filter (fun x => decide (x.device_id = d)) [r] = [] := by simp [hd]
        rw [if_neg hd, hfr, List.append_nil]

theorem group_keys_nodup (rs : List HourlyRecord) (acc : List (String × List HourlyRecord))
    (hnd : (acc.map Prod.fst).Nodup) : ((rs.foldl groupStep acc).map Prod.fst).Nodup := by
  induction rs generalizing acc with
  | nil => exact hnd
  | cons r rs ih =>
      rw [List.foldl_cons]
      apply ih
      unfold groupStep
      cases lookupA r.device_id acc with
      | none => exact nodup_keys_updateA hnd
      | some g => exact nodup_keys_updateA hnd

/-- Membership in the aggregate output: each summary is the summarization
of the (hour-sorted) records of one device that occurs in the input. -/
theorem mem_compute_device_usage {s : DeviceUsage} {rs : List HourlyRecord}
    {ut tt : Rat} {w : Int} :
    s ∈ compute_device_usage rs ut tt w ↔
      ∃ d, rs.filter (fun r => decide (r.device_id = d)) ≠ [] ∧
        s = _summarize_device d
          (List.insertionSort hourLE (rs.filter (fun r => decide (r.device_id = d))))
          ut tt w := by
  unfold compute_device_usage
  constructor
  · intro hs
    rcases List.mem_map.1 hs with ⟨p, hp, hps⟩
    have hp2 : p ∈ rs.foldl groupStep [] := (List.mem_insertionSort devLE).1 hp
    have hnd := group_keys_nodup rs [] (by simp)
    have hlk : lookupA p.1 (rs.foldl groupStep []) = some p.2 := mem_lookupA hnd hp2
    rw [lookupA_group] at hlk
    by_cases hne : rs.filter (fun r => decide (r.device_id = p.1)) = []
    · rw [if_pos hne] at hlk
      exact absurd hlk (by simp)
    · rw [if_neg hne] at hlk
      refine ⟨p.1, hne, ?_⟩
      rw [← hps, Option.some.inj hlk]
  · rintro ⟨d, hne, hs⟩
    have hlk : lookupA d (rs.foldl groupStep [])
        = some (rs.filter (fun r => decide (r.device_id = d))) := by
      rw [lookupA_group, if_neg hne]
    have hmem : (d, rs.filter (fun r => decide (r.device_id = d))) ∈ rs.foldl groupStep [] :=
      lookupA_mem hlk
    have hmem2 : (d, rs.filter (fun r => decide (r.device_id = d)))
        ∈ List.insertionSort devLE (rs.foldl groupStep []) :=
      (List.mem_insertionSort devLE).2 hmem
    exact List.mem_map.2 ⟨_, hmem2, hs.symm⟩

/-- The summary's device id is the device it was built for. -/
theorem summarize_device_id (d : String) (recs : List HourlyRecord) (ut tt : Rat) (w : Int) :
    (_summarize_device d recs ut tt w).device_id = d := by
  unfold _summarize_device
  cases recs.getLast? with
  | none => rfl
  | some lastRec => rfl

/-- `_summarize_device` on a device with at least one reading, spelled out. -/
theorem summarize_eq_of_last {d : String} {recs : List HourlyRecord} {ut tt : Rat} {w : Int}
    {lastRec : HourlyRecord} (h : recs.getLast? = some lastRec) :
    _summarize_device d recs ut tt w =
      { device_id := d
        seven_day_average_hours_per_day :=
          avgOver (recentOf (windowFor tt recs (dateOf lastRec.hour) w))
        overall_average_hours_per_day := avgOver (windowFor tt recs (dateOf lastRec.hour) w)
        days := windowFor tt recs (dateOf lastRec.hour) w
        threshold_met :=
          decide (0 < completeCount (recentOf (windowFor tt recs (dateOf lastRec.hour) w)))
            && decide (ut ≤ avgOver (recentOf (windowFor tt recs (dateOf lastRec.hour) w)))
        complete_days_last_seven :=
          completeCount (recentOf (windowFor tt recs (dateOf lastRec.hour) w))
        complete_days_overall := completeCount (windowFor tt recs (dateOf lastRec.hour) w) } := by
  unfold _summarize_device
  rw [h]

theorem mkDailyUsage_day (tt : Rat) (recs : List HourlyRecord) (t : Int) :
    (mkDailyUsage tt recs t).day = t := rfl

theorem mkDailyUsage_samples (tt : Rat) (recs : List HourlyRecord) (t : Int) :
    (mkDailyUsage tt recs t).samples_present =
      (mkDailyUsage tt recs t).hours_in_use
        + (mkDailyUsage tt recs t).below_threshold_hours.length := rfl

theorem mkDailyUsage_complete_iff (tt : Rat) (recs : List HourlyRecord) (t : Int) :
    (mkDailyUsage tt recs t).is_complete = true ↔
      (mkDailyUsage tt recs t).samples_present = 24 :=
  beq_iff_eq

theorem length_filter_and_split {α : Type} (l : List α) (p q : α → Bool) :
    (l.filter (fun a => p a && q a)).length + (l.filter (fun a => p a && !q a)).length
      = (l.filter p).length := by
  induction l with
  | nil => rfl
  | cons a l ih =>
      cases hp : p a <;> cases hq : q a <;>
        simp [List.filter_cons, hp, hq, ih] <;> omega

/-- A day bucket's sample count is the number of that device's records on
that calendar day. -/
theorem samples_eq_day_count (tt : Rat) (recs : List HourlyRecord) (t : Int) :
    (mkDailyUsage tt recs t).samples_present =
      (recs.filter (fun r => decide (dateOf r.hour = t))).length := by
  show hours_in_use_by_day tt recs t
      + (List.insertionSort Timestamp.le (below_threshold_by_day tt recs t)).length
    = (recs.filter (fun r => decide (dateOf r.hour = t))).length
  rw [List.length_insertionSort]
  unfold hours_in_use_by_day below_threshold_by_day
  rw [List.length_map]
  exact length_filter_and_split recs (fun r => decide (dateOf r.hour = t))
    (inUse tt)

theorem windowFor_length (tt : Rat) (recs : List HourlyRecord) (a w : Int) :
    (windowFor tt recs a w).length = w.toNat := by
  unfold windowFor
  rw [List.length_map, List.length_range]

theorem windowFor_get (tt : Rat) (recs : List HourlyRecord) (a w : Int) (i : Nat)
    (h : i < (windowFor tt recs a w).length) :
    (windowFor tt recs a w).get ⟨i, h⟩ = mkDailyUsage tt recs (a - (w - 1 - (i : Int))) := by
  unfold windowFor
  rw [List.get_map, List.get_range]

theorem mem_windowFor {tt : Rat} {recs : List HourlyRecord} {a w : Int} {du : DailyUsage} :
    du ∈ windowFor tt recs a w ↔
      ∃ offset : Nat, offset < w.toNat ∧
        du = mkDailyUsage tt recs (a - (w - 1 - (offset : Int))) := by
  unfold windowFor
  rw [List.mem_map]
  constructor
  · rintro ⟨o, ho, he⟩
    exact ⟨o, List.mem_range.1 ho, he.symm⟩
  · rintro ⟨o, ho, he⟩
    exact ⟨o, List.mem_range.2 ho, he.symm⟩

theorem avgOver_of_zero {l : List DailyUsage} (h : completeCount l = 0) : avgOver l = 0 := by
  unfold avgOver
  rw [if_pos h]

theorem avgOver_of_pos {l : List DailyUsage} (h : completeCount l ≠ 0) :
    avgOver l = (completeHours l : Rat) / (completeCount l : Rat) := by
  unfold avgOver
  rw [if_neg h]

theorem completeCount_pos_iff {l : List DailyUsage} :
    0 < completeCount l ↔ ∃ du ∈ l, du.is_complete = true := by
  unfold completeCount
  rw [List.length_pos_iff_exists_mem]
  constructor
  · rintro ⟨du, hdu⟩
    rcases List.mem_filter.1 hdu with ⟨h1, h2⟩
    exact ⟨du, h1, by simpa using h2⟩
  · rintro ⟨du, h1, h2⟩
    exact ⟨du, List.mem_filter.2 ⟨h1, by simpa using h2⟩⟩

theorem recentOf_sublist (l : List DailyUsage) : List.Sublist (recentOf l) l :=
  List.drop_sublist _ _

theorem recentOf_eq_self_of_le {l : List DailyUsage} (h : l.length ≤ 7) : recentOf l = l := by
  unfold recentOf
  rw [min_eq_right h, Nat.sub_self, List.drop_zero]

/-- `_summarize_device` on a device with zero hourly readings. -/
theorem summarize_empty (d : String) (ut tt : Rat) (w : Int) :
    _summarize_device d [] ut tt w =
      { device_id := d
        seven_day_average_hours_per_day := 0
        overall_average_hours_per_day := 0
        days := []
        threshold_met := false
        complete_days_last_seven := 0
        complete_days_overall := 0 } := rfl

theorem summarize_days_of_ne_nil (d : String) (recs : List HourlyRecord) (ut tt : Rat)
    (w : Int) (h : recs ≠ []) :
    ∃ lastRec, recs.getLast? = some lastRec ∧
      (_summarize_device d recs ut tt w).days = windowFor tt recs (dateOf lastRec.hour) w := by
  cases hl : recs.getLast? with
  | none => exact absurd (List.getLast?_eq_none.1 hl) h
  | some lastRec =>
      refine ⟨lastRec, rfl, ?_⟩
      rw [summarize_eq_of_last hl]

/-- Under at most one reading per device-hour, a single device has at most
24 readings on any calendar day (their hour-of-day fields are distinct). -/
theorem day_count_le_24 {recs : List HourlyRecord} {t : Int}
    (hnd : recs.Pairwise
      (fun a b => (a.device_id, floorHour a.hour) ≠ (b.device_id, floorHour b.hour)))
    (hsame : ∀ a ∈ recs, ∀ b ∈ recs, a.device_id = b.device_id) :
    (recs.filter (fun r => decide (dateOf r.hour = t))).length ≤ 24 := by
  have hsub : List.Sublist (recs.filter (fun r => decide (dateOf r.hour = t))) recs :=
    List.filter_sublist recs
  have hnd2 := hnd.sublist hsub
  have hmapnd : ((recs.filter (fun r => decide (dateOf r.hour = t))).map
      (fun r => r.hour.hour)).Nodup := by
    refine List.pairwise_map.2 ?_
    refine List.Pairwise.imp_of_mem ?_ hnd2
    intro a b ha hb hne he
    apply hne
    have hda : dateOf a.hour = t := of_decide_eq_true (List.mem_filter.1 ha).2
    have hdb : dateOf b.hour = t := of_decide_eq_true (List.mem_filter.1 hb).2
    have hdev : a.device_id = b.device_id :=
      hsame a (List.mem_filter.1 ha).1 b (List.mem_filter.1 hb).1
    have hd2 : a.hour.day = b.hour.day := by
      show dateOf a.hour = dateOf b.hour
      rw [hda, hdb]
    show (a.device_id, floorHour a.hour) = (b.device_id, floorHour b.hour)
    rw [hdev]
    have hfl : floorHour a.hour = floorHour b.hour := by
      show (⟨a.hour.day, a.hour.hour, 0, 0, 0⟩ : Timestamp)
        = ⟨b.hour.day, b.hour.hour, 0, 0, 0⟩
      rw [hd2, he]
    rw [hfl]
  have hlen := hmapnd.length_le_card
  simpa using hlen

/-- In an hour-sorted record list, the last record has the maximum hour. -/
theorem sorted_getLast_max {l : List HourlyRecord} (hs : l.Sorted hourLE)
    {x last : HourlyRecord} (hx : x ∈ l) (hl : l.getLast? = some last) :
    Timestamp.le x.hour last.hour := by
  have hne : l ≠ [] := by
    intro he
    rw [he] at hl
    exact Option.noConfusion hl
  have hlast : last = l.getLast hne := by
    have h2 := List.getLast?_eq_getLast l hne
    rw [hl] at h2
    exact Option.some.inj h2
  rcases List.mem_iff_get.1 hx with ⟨i, hi⟩
  have hlen : 0 < l.length := List.length_pos.2 hne
  have hget : l.getLast hne = l.get ⟨l.length - 1, by omega⟩ := List.getLast_eq_get l hne
  by_cases he : (i : Nat) = l.length - 1
  · have hxl : x = last := by
      rw [← hi, hlast, hget]
      congr 1
      exact Fin.ext he
    rw [hxl]
    exact le_refl last.hour.enc
  · have hio : (i : Nat) < l.length - 1 := by
      have := i.isLt
      omega
    have hp := List.pairwise_iff_get.1 hs i ⟨l.length - 1, by omega⟩
      (by simpa [Fin.lt_def] using hio)
    rw [hi] at hp
    rw [hlast, hget]
    exact hp

theorem windowFor_day_succ (tt : Rat) (recs : List HourlyRecord) (a w : Int) (i : Nat)
    (h1 : i < (windowFor tt recs a w).length) (h2 : i + 1 < (windowFor tt recs a w).length) :
    ((windowFor tt recs a w).get ⟨i + 1, h2⟩).day
      = ((windowFor tt recs a w).get ⟨i, h1⟩).day + 1 := by
  rw [windowFor_get, windowFor_get, mkDailyUsage_day, mkDailyUsage_day]
  push_cast
  ring

theorem windowFor_getLast (tt : Rat) (recs : List HourlyRecord) (a w : Int) (hw : 0 < w) :
    ∃ dlast, (windowFor tt recs a w).getLast? = some dlast ∧ dlast.day = a := by
  have hlen : (windowFor tt recs a w).length = w.toNat := windowFor_length tt recs a w
  have hne : windowFor tt recs a w ≠ [] := by
    intro he
    rw [he] at hlen
    simp at hlen
    omega
  refine ⟨(windowFor tt recs a w).getLast hne, List.getLast?_eq_getLast _ hne, ?_⟩
  rw [List.getLast_eq_get, windowFor_get, mkDailyUsage_day, hlen]
  omega

theorem window_member_complete {tt : Rat} {recs : List HourlyRecord} {a w : Int}
    {du : DailyUsage} (h : du ∈ windowFor tt recs a w) :
    du.is_complete = (du.samples_present == 24) := by
  rcases mem_windowFor.1 h with ⟨o, ho, rfl⟩
  rfl

theorem avgOver_eq_specAverage {l : List DailyUsage}
    (h : ∀ du ∈ l, du.is_complete = (du.samples_present == 24)) :
    avgOver l = specAverage l := by
  have hf : l.filter (·.is_complete) = l.filter (fun du => du.samples_present == 24) :=
    List.filter_congr h
  unfold avgOver specAverage completeCount completeHours
  rw [hf]

/-- C8: when the aggregator is given a device with zero hourly readings it
returns a summary with zero averages, zero complete-day counts, an empty
day list, and a false goal-met flag. -/
theorem c8_empty_device_summary (d : String) (ut tt : Rat) (w : Int) :
    _summarize_device d [] ut tt w =
      { device_id := d
        seven_day_average_hours_per_day := 0
        overall_average_hours_per_day := 0
        days := []
        threshold_met := false
        complete_days_last_seven := 0
        complete_days_overall := 0 } := rfl

/-- C7: normalization is idempotent — reinterpreting the normalizer's
output as raw readings (timestamp := the already hour-floored hour
instant) and normalizing again returns that output unchanged. -/
theorem c7_normalize_idempotent (records : List RawRecord) :
    normalize_records ((normalize_records records).map asRaw) = normalize_records records :=
  normalize_records_asRaw records

/-- C10: for a device with at least one reading and `1 ≤ window_days ≤ 7`,
the seven-day average and complete-day count coincide with the overall
ones. -/
theorem c10_seven_eq_overall (d : String) (recs : List HourlyRecord) (ut tt : Rat)
    (w : Int) (hne : recs ≠ []) (hw1 : 0 < w) (hw7 : w ≤ 7) :
    ((_summarize_device d recs ut tt w).seven_day_average_hours_per_day
        = (_summarize_device d recs ut tt w).overall_average_hours_per_day ∧
      (_summarize_device d recs ut tt w).complete_days_last_seven
        = (_summarize_device d recs ut tt w).complete_days_overall) := by
  obtain ⟨lastRec, hlr, _⟩ :=
    summarize_days_of_ne_nil d recs ut tt w hne
  have hlen : (windowFor tt recs (dateOf lastRec.hour) w).length ≤ 7 := by
    rw [windowFor_length]
    omega
  constructor
  · rw [summarize_eq_of_last hlr]
    show avgOver (recentOf (windowFor tt recs (dateOf lastRec.hour) w))
      = avgOver (windowFor tt recs (dateOf lastRec.hour) w)
    rw [recentOf_eq_self_of_le hlen]
  · rw [summarize_eq_of_last hlr]
    show completeCount (recentOf (windowFor tt recs (dateOf lastRec.hour) w))
      = completeCount (windowFor tt recs (dateOf lastRec.hour) w)
    rw [recentOf_eq_self_of_le hlen]

/-- C1: for a device with at least one reading and a configured (positive)
usage threshold, the goal-met flag is true exactly when the window holds
at least one complete day and the rolling (seven-day) average reaches the
threshold, compared with `>=`. -/
theorem c1_threshold_met_iff (d : String) (recs : List HourlyRecord) (ut tt : Rat)
    (w : Int) (hne : recs ≠ []) (hut : 0 < ut) :
    ((_summarize_device d recs ut tt w).threshold_met = true ↔
      ((∃ du ∈ (_summarize_device d recs ut tt w).days, du.is_complete = true) ∧
        ut ≤ (_summarize_device d recs ut tt w).seven_day_average_hours_per_day)) := by
  obtain ⟨lastRec, hlr, _⟩ :=
    summarize_days_of_ne_nil d recs ut tt w hne
  rw [summarize_eq_of_last hlr]
  dsimp only
  rw [Bool.and_eq_true, decide_eq_true_eq, decide_eq_true_eq]
  constructor
  · rintro ⟨hpos, havg⟩
    refine ⟨?_, havg⟩
    rcases completeCount_pos_iff.1 hpos with ⟨du, hdu, hc⟩
    exact ⟨du, (recentOf_sublist _).subset hdu, hc⟩
  · rintro ⟨⟨du, hdu, hc⟩, havg⟩
    refine ⟨?_, havg⟩
    by_contra hzero
    have hc0 : completeCount (recentOf (windowFor tt recs (dateOf lastRec.hour) w)) = 0 := by
      omega
    rw [avgOver_of_zero hc0] at havg
    exact not_le.2 hut havg

/-- C4: each rolling average equals the spec's complete-days-only average
of its window (incomplete days contribute to neither numerator nor
denominator), and with no complete day both averages are `0` and the goal
is not met regardless of threshold. -/
theorem c4_average_spec (d : String) (recs : List HourlyRecord) (ut tt : Rat) (w : Int)
    (hne : recs ≠ []) :
    ((_summarize_device d recs ut tt w).overall_average_hours_per_day
        = specAverage (_summarize_device d recs ut tt w).days ∧
      (_summarize_device d recs ut tt w).seven_day_average_hours_per_day
        = specAverage (recentOf (_summarize_device d recs ut tt w).days) ∧
      ((¬ ∃ du ∈ (_summarize_device d recs ut tt w).days, du.is_complete = true) →
        ((_summarize_device d recs ut tt w).overall_average_hours_per_day = 0 ∧
          (_summarize_device d recs ut tt w).seven_day_average_hours_per_day = 0 ∧
          (_summarize_device d recs ut tt w).threshold_met = false))) := by
  obtain ⟨lastRec, hlr, _⟩ :=
    summarize_days_of_ne_nil d recs ut tt w hne
  rw [summarize_eq_of_last hlr]
  dsimp only
  have hmemW : ∀ du ∈ windowFor tt recs (dateOf lastRec.hour) w,
      du.is_complete = (du.samples_present == 24) := fun du h => window_member_complete h
  have hmemR : ∀ du ∈ recentOf (windowFor tt recs (dateOf lastRec.hour) w),
      du.is_complete = (du.samples_present == 24) := fun du h =>
    window_member_complete ((recentOf_sublist _).subset h)
  refine ⟨avgOver_eq_specAverage hmemW, avgOver_eq_specAverage hmemR, ?_⟩
  intro hnone
  have hcc : completeCount (windowFor tt recs (dateOf lastRec.hour) w) = 0 := by
    by_contra hpos
    rcases completeCount_pos_iff.1 (Nat.pos_of_ne_zero hpos) with ⟨du, hdu, hc⟩
    exact hnone ⟨du, hdu, hc⟩
  have hccR : completeCount (recentOf (windowFor tt recs (dateOf lastRec.hour) w)) = 0 := by
    by_contra hpos
    rcases completeCount_pos_iff.1 (Nat.pos_of_ne_zero hpos) with ⟨du, hdu, hc⟩
    exact hnone ⟨du, (recentOf_sublist _).subset hdu, hc⟩
  refine ⟨avgOver_of_zero hcc, avgOver_of_zero hccR, ?_⟩
  rw [hccR]
  simp

/-- C6: every emitted day bucket counts exactly its calendar day's
strictly-above-threshold readings in `hours_in_use`, and its
`below_threshold_hours` are the hour instants of all the other readings of
that day, emitted sorted ascending. -/
theorem c6_day_classification (d : String) (recs : List HourlyRecord) (ut tt : Rat)
    (w : Int) (du : DailyUsage) (hdu : du ∈ (_summarize_device d recs ut tt w).days) :
    (du.hours_in_use
        = (recs.filter (fun r => decide (dateOf r.hour = du.day) && inUse tt r)).length ∧
      List.Perm du.below_threshold_hours
        ((recs.filter (fun r => decide (dateOf r.hour = du.day) && !inUse tt r)).map
          (·.hour)) ∧
      du.below_threshold_hours.Sorted Timestamp.le) := by
  cases hgl : recs.getLast? with
  | none =>
      rw [show recs = [] from List.getLast?_eq_none.1 hgl, summarize_empty] at hdu
      simp at hdu
  | some lastRec =>
      rw [summarize_eq_of_last hgl] at hdu
      dsimp only at hdu
      rcases mem_windowFor.1 hdu with ⟨o, ho, rfl⟩
      refine ⟨?_, ?_, ?_⟩
      · rw [mkDailyUsage_day]
        rfl
      · rw [mkDailyUsage_day]
        show List.Perm (List.insertionSort Timestamp.le
          (below_threshold_by_day tt recs (dateOf lastRec.hour - (w - 1 - (o : Int)))))
          ((recs.filter (fun r =>
            decide (dateOf r.hour = dateOf lastRec.hour - (w - 1 - (o : Int)))
              && !inUse tt r)).map (·.hour))
        exact List.perm_insertionSort Timestamp.le _
      · show (List.insertionSort Timestamp.le
          (below_threshold_by_day tt recs (dateOf lastRec.hour - (w - 1 - (o : Int))))).Sorted
          Timestamp.le
        exact List.sorted_insertionSort Timestamp.le _

/-- C3: for every device with at least one hourly reading and positive
`window_days`, the emitted day list has exactly `window_days` entries,
consecutive ascending calendar days, and its last entry's day is the
calendar day of the device's most recent (maximum-hour) reading. -/
theorem c3_window_shape (rs : List HourlyRecord) (ut tt : Rat) (w : Int) (hw : 0 < w)
    (s : DeviceUsage) (hs : s ∈ compute_device_usage rs ut tt w) :
    (((s.days.length : Int) = w) ∧
      (∀ i : Nat, ∀ h1 : i < s.days.length, ∀ h2 : i + 1 < s.days.length,
        (s.days.get ⟨i + 1, h2⟩).day = (s.days.get ⟨i, h1⟩).day + 1) ∧
      ∃ r ∈ rs, r.device_id = s.device_id ∧
        (∀ q ∈ rs, q.device_id = s.device_id → Timestamp.le q.hour r.hour) ∧
        ∃ dlast, s.days.getLast? = some dlast ∧ dlast.day = dateOf r.hour) := by
  rcases mem_compute_device_usage.1 hs with ⟨d, hne, hseq⟩
  have hrne : List.insertionSort hourLE (rs.filter (fun r => decide (r.device_id = d)))
      ≠ [] := by
    intro he
    have hlen := List.length_insertionSort hourLE (rs.filter (fun r => decide (r.device_id = d)))
    rw [he] at hlen
    exact hne (List.length_eq_zero.1 hlen.symm)
  obtain ⟨lastRec, hlr, hdays⟩ :=
    summarize_days_of_ne_nil d
      (List.insertionSort hourLE (rs.filter (fun r => decide (r.device_id = d)))) ut tt w hrne
  have hsdays : s.days = windowFor tt (List.insertionSort hourLE
      (rs.filter (fun r => decide (r.device_id = d)))) (dateOf lastRec.hour) w := by
    rw [hseq]
    exact hdays
  have hsdev : s.device_id = d := by
    rw [hseq, summarize_device_id]
  refine ⟨?_, ?_, ?_⟩
  · rw [hsdays, windowFor_length, Int.toNat_of_nonneg (le_of_lt hw)]
  · rw [hsdays]
    exact windowFor_day_succ tt _ _ w
  · have hlast_eq : lastRec = (List.insertionSort hourLE
        (rs.filter (fun r => decide (r.device_id = d)))).getLast hrne := by
      have h2 := List.getLast?_eq_getLast _ hrne
      rw [hlr] at h2
      exact Option.some.inj h2
    have hmem_sorted : lastRec ∈ List.insertionSort hourLE
        (rs.filter (fun r => decide (r.device_id = d))) := by
      rw [hlast_eq]
      exact List.getLast_mem hrne
    have hmem_filter := (List.mem_insertionSort hourLE).1 hmem_sorted
    refine ⟨lastRec, (List.mem_filter.1 hmem_filter).1, ?_, ?_, ?_⟩
    · rw [hsdev]
      exact of_decide_eq_true (List.mem_filter.1 hmem_filter).2
    · intro q hq hqd
      have hq2 : q ∈ List.insertionSort hourLE
          (rs.filter (fun r => decide (r.device_id = d))) :=
        (List.mem_insertionSort hourLE).2
          (List.mem_filter.2 ⟨hq, decide_eq_true (hqd.trans hsdev)⟩)
      exact sorted_getLast_max (List.sorted_insertionSort hourLE _) hq2 hlr
    · obtain ⟨dlast, hgl2, hday⟩ := windowFor_getLast tt (List.insertionSort hourLE
        (rs.filter (fun r => decide (r.device_id = d)))) (dateOf lastRec.hour) w hw
      refine ⟨dlast, ?_, hday⟩
      rw [hsdays]
      exact hgl2

/-- C2: when the input holds at most one reading per device-hour, every
emitted day bucket satisfies
`hours_in_use + |below_threshold_hours| = samples_present ≤ 24` and
`is_complete ↔ samples_present = 24`. -/
theorem c2_day_bucket_invariant (rs : List HourlyRecord) (ut tt : Rat) (w : Int)
    (hnd : rs.Pairwise
      (fun a b => (a.device_id, floorHour a.hour) ≠ (b.device_id, floorHour b.hour)))
    (s : DeviceUsage) (hs : s ∈ compute_device_usage rs ut tt w)
    (du : DailyUsage) (hdu : du ∈ s.days) :
    (du.hours_in_use + du.below_threshold_hours.length = du.samples_present ∧
      du.samples_present ≤ 24 ∧
      (du.is_complete = true ↔ du.samples_present = 24)) := by
  rcases mem_compute_device_usage.1 hs with ⟨d, hne, hseq⟩
  rw [hseq] at hdu
  cases hgl : (List.insertionSort hourLE
      (rs.filter (fun r => decide (r.device_id = d)))).getLast? with
  | none =>
      rw [show List.insertionSort hourLE (rs.filter (fun r => decide (r.device_id = d))) = []
        from List.getLast?_eq_none.1 hgl, summarize_empty] at hdu
      simp at hdu
  | some lastRec =>
      rw [summarize_eq_of_last hgl] at hdu
      dsimp only at hdu
      rcases mem_windowFor.1 hdu with ⟨o, ho, rfl⟩
      refine ⟨(mkDailyUsage_samples tt _ _).symm, ?_, mkDailyUsage_complete_iff tt _ _⟩
      rw [samples_eq_day_count]
      have hperm : List.Perm (List.insertionSort hourLE
          (rs.filter (fun r => decide (r.device_id = d))))
          (rs.filter (fun r => decide (r.device_id = d))) :=
        List.perm_insertionSort hourLE _
      have hnd2 : (List.insertionSort hourLE
          (rs.filter (fun r => decide (r.device_id = d)))).Pairwise
          (fun a b => (a.device_id, floorHour a.hour) ≠ (b.device_id, floorHour b.hour)) := by
        refine (hperm.pairwise_iff ?_).2 (hnd.sublist (List.filter_sublist rs))
        intro x y hxy he
        exact hxy he.symm
      have hsame : ∀ a ∈ List.insertionSort hourLE
          (rs.filter (fun r => decide (r.device_id = d))),
          ∀ b ∈ List.insertionSort hourLE (rs.filter (fun r => decide (r.device_id = d))),
          a.device_id = b.device_id := by
        intro a ha b hb
        have ha2 := of_decide_eq_true (List.mem_filter.1 (hperm.subset ha)).2
        have hb2 := of_decide_eq_true (List.mem_filter.1 (hperm.subset hb)).2
        rw [ha2, hb2]
      exact day_count_le_24 hnd2 hsame

/-- C9: the aggregation is total — for every input, `window_days` zero or
negative included, it yields exactly one summary per distinct device, and
every division is guarded: a zero complete-day count forces the
corresponding average to be `0`. -/
theorem c9_totality (rs : List HourlyRecord) (ut tt : Rat) (w : Int) :
    ((compute_device_usage rs ut tt w).length = ((rs.map (·.device_id)).dedup).length ∧
      ∀ s ∈ compute_device_usage rs ut tt w,
        ((s.complete_days_overall = 0 → s.overall_average_hours_per_day = 0) ∧
          (s.complete_days_last_seven = 0 → s.seven_day_average_hours_per_day = 0) ∧
          (w ≤ 0 → s.days = []))) := by
  constructor
  · show (List.map _ (List.insertionSort devLE (rs.foldl groupStep []))).length = _
    rw [List.length_map, List.length_insertionSort]
    have hk : ((rs.foldl groupStep []).map Prod.fst).Nodup := group_keys_nodup rs [] (by simp)
    have hmem : ∀ x, x ∈ (rs.foldl groupStep []).map Prod.fst ↔
        x ∈ rs.map (·.device_id) := by
      intro x
      constructor
      · intro hx
        have hnn : lookupA x (rs.foldl groupStep []) ≠ none := by
          rw [Ne, lookupA_eq_none]
          exact fun h => h hx
        rw [lookupA_group] at hnn
        by_cases hf : rs.filter (fun r => decide (r.device_id = x)) = []
        · rw [if_pos hf] at hnn
          exact absurd rfl hnn
        · rcases List.exists_mem_of_ne_nil _ hf with ⟨r, hr⟩
          rcases List.mem_filter.1 hr with ⟨hr1, hr2⟩
          exact List.mem_map.2 ⟨r, hr1, of_decide_eq_true hr2⟩
      · intro hx
        rcases List.mem_map.1 hx with ⟨r, hr, hrx⟩
        have hf : rs.filter (fun q => decide (q.device_id = x)) ≠ [] := by
          intro he
          have hrm : r ∈ rs.filter (fun q => decide (q.device_id = x)) :=
            List.mem_filter.2 ⟨hr, decide_eq_true hrx⟩
          rw [he] at hrm
          simp at hrm
        have hnn : lookupA x (rs.foldl groupStep []) ≠ none := by
          rw [lookupA_group, if_neg hf]
          simp
        rw [Ne, lookupA_eq_none] at hnn
        exact not_not.1 hnn
    have h1 : (rs.foldl groupStep []).length
        = ((rs.foldl groupStep []).map Prod.fst).length := (List.length_map _ _).symm
    rw [h1, ← List.toFinset_card_of_nodup hk,
      ← List.toFinset_card_of_nodup (List.nodup_dedup (rs.map (·.device_id)))]
    congr 1
    ext x
    simp only [List.mem_toFinset, List.mem_dedup]
    exact hmem x
  · intro s hs
    rcases mem_compute_device_usage.1 hs with ⟨d, hne, hseq⟩
    cases hgl : (List.insertionSort hourLE
        (rs.filter (fun r => decide (r.device_id = d)))).getLast? with
    | none =>
        rw [hseq, show List.insertionSort hourLE
          (rs.filter (fun r => decide (r.device_id = d))) = []
          from List.getLast?_eq_none.1 hgl, summarize_empty]
        exact ⟨fun _ => rfl, fun _ => rfl, fun _ => rfl⟩
    | some lastRec =>
        rw [hseq, summarize_eq_of_last hgl]
        dsimp only
        refine ⟨avgOver_of_zero, avgOver_of_zero, ?_⟩
        intro hw0
        show windowFor tt _ (dateOf lastRec.hour) w = []
        unfold windowFor
        rw [Int.toNat_of_nonpos hw0]
        rfl

/-- C5: within each device-hour group the normalizer retains the reading
with the strictly greatest temperature, and on exact temperature ties the
earlier-inserted one: every group member before the retained reading is
strictly colder and every one after it is at most as warm. -/
theorem c5_group_max_tiebreak (records : List RawRecord) (k : String × Timestamp)
    (r0 : RawRecord) (h0 : r0 ∈ records) (hk : hkey r0 = k) :
    ∃ pre r post,
      (records.filter (fun x => decide (hkey x = k)) = pre ++ r :: post ∧
        (∀ x ∈ pre, x.temperature < r.temperature) ∧
        (∀ x ∈ post, x.temperature ≤ r.temperature) ∧
        (normalize_records records).filter
          (fun h => decide ((h.device_id, h.hour) = k)) = [toHourly r]) := by
  have hmem : r0 ∈ records.filter (fun x => decide (hkey x = k)) :=
    List.mem_filter.2 ⟨h0, decide_eq_true hk⟩
  have hne : records.filter (fun x => decide (hkey x = k)) ≠ [] := by
    intro he
    rw [he] at hmem
    simp at hmem
  cases hpfm : pickFirstMax (records.filter (fun x => decide (hkey x = k))) with
  | none => exact absurd (pickFirstMax_eq_none.1 hpfm) hne
  | some r =>
      rcases pickFirstMax_spec hpfm with ⟨pre, post, hdec, hpre, hpost⟩
      exact ⟨pre, r, post, hdec, hpre, hpost, normalize_filter_key records k hpfm⟩

theorem c1_threshold_met_iff_witness :
    (([⟨"a", ⟨0, 0, 0, 0, 0⟩, 95⟩] : List HourlyRecord) ≠ [] ∧ (0 : Rat) < 16) ∧
      ((_summarize_device "a" [⟨"a", ⟨0, 0, 0, 0, 0⟩, 95⟩] 16 90 1).threshold_met = true ↔
        ((∃ du ∈ (_summarize_device "a" [⟨"a", ⟨0, 0, 0, 0, 0⟩, 95⟩] 16 90 1).days,
            du.is_complete = true) ∧
          (16 : Rat) ≤ (_summarize_device "a" [⟨"a", ⟨0, 0, 0, 0, 0⟩, 95⟩] 16 90
            1).seven_day_average_hours_per_day)) :=
  ⟨⟨by decide, by decide⟩,
    c1_threshold_met_iff "a" [⟨"a", ⟨0, 0, 0, 0, 0⟩, 95⟩] 16 90 1 (by decide) (by decide)⟩

theorem c2_day_bucket_invariant_witness :
    (([⟨"a", ⟨0, 0, 0, 0, 0⟩, 95⟩] : List HourlyRecord).Pairwise
        (fun a b => (a.device_id, floorHour a.hour) ≠ (b.device_id, floorHour b.hour)) ∧
      _summarize_device "a" [⟨"a", ⟨0, 0, 0, 0, 0⟩, 95⟩] 16 90 1
        ∈ compute_device_usage [⟨"a", ⟨0, 0, 0, 0, 0⟩, 95⟩] 16 90 1 ∧
      (⟨0, 1, [], 1, false⟩ : DailyUsage)
        ∈ (_summarize_device "a" [⟨"a", ⟨0, 0, 0, 0, 0⟩, 95⟩] 16 90 1).days) ∧
    ((⟨0, 1, [], 1, false⟩ : DailyUsage).hours_in_use
        + (⟨0, 1, [], 1, false⟩ : DailyUsage).below_threshold_hours.length
        = (⟨0, 1, [], 1, false⟩ : DailyUsage).samples_present ∧
      (⟨0, 1, [], 1, false⟩ : DailyUsage).samples_present ≤ 24 ∧
      ((⟨0, 1, [], 1, false⟩ : DailyUsage).is_complete = true ↔
        (⟨0, 1, [], 1, false⟩ : DailyUsage).samples_present = 24)) :=
  ⟨⟨by decide, by decide, by decide⟩,
    c2_day_bucket_invariant [⟨"a", ⟨0, 0, 0, 0, 0⟩, 95⟩] 16 90 1 (by decide)
      (_summarize_device "a" [⟨"a", ⟨0, 0, 0, 0, 0⟩, 95⟩] 16 90 1) (by decide)
      ⟨0, 1, [], 1, false⟩ (by decide)⟩

theorem c3_window_shape_witness :
    ((0 : Int) < 1 ∧
      _summarize_device "a" [⟨"a", ⟨0, 0, 0, 0, 0⟩, 95⟩] 16 90 1
        ∈ compute_device_usage [⟨"a", ⟨0, 0, 0, 0, 0⟩, 95⟩] 16 90 1) ∧
    ((((_summarize_device "a" [⟨"a", ⟨0, 0, 0, 0, 0⟩, 95⟩] 16 90 1).days.length : Int)
        = 1) ∧
      (∀ i : Nat,
        ∀ h1 : i < (_summarize_device "a" [⟨"a", ⟨0, 0, 0, 0, 0⟩, 95⟩] 16 90 1).days.length,
        ∀ h2 : i + 1
          < (_summarize_device "a" [⟨"a", ⟨0, 0, 0, 0, 0⟩, 95⟩] 16 90 1).days.length,
        ((_summarize_device "a" [⟨"a", ⟨0, 0, 0, 0, 0⟩, 95⟩] 16 90 1).days.get
            ⟨i + 1, h2⟩).day
          = ((_summarize_device "a" [⟨"a", ⟨0, 0, 0, 0, 0⟩, 95⟩] 16 90 1).days.get
            ⟨i, h1⟩).day + 1) ∧
      ∃ r ∈ ([⟨"a", ⟨0, 0, 0, 0, 0⟩, 95⟩] : List HourlyRecord),
        r.device_id = (_summarize_device "a" [⟨"a", ⟨0, 0, 0, 0, 0⟩, 95⟩] 16 90
          1).device_id ∧
        (∀ q ∈ ([⟨"a", ⟨0, 0, 0, 0, 0⟩, 95⟩] : List HourlyRecord),
          q.device_id = (_summarize_device "a" [⟨"a", ⟨0, 0, 0, 0, 0⟩, 95⟩] 16 90
            1).device_id → Timestamp.le q.hour r.hour) ∧
        ∃ dlast, (_summarize_device "a" [⟨"a", ⟨0, 0, 0, 0, 0⟩, 95⟩] 16 90
            1).days.getLast? = some dlast ∧ dlast.day = dateOf r.hour) :=
  ⟨⟨by decide, by decide⟩,
    c3_window_shape [⟨"a", ⟨0, 0, 0, 0, 0⟩, 95⟩] 16 90 1 (by decide)
      (_summarize_device "a" [⟨"a", ⟨0, 0, 0, 0, 0⟩, 95⟩] 16 90 1) (by decide)⟩

theorem c4_average_spec_witness :
    (([⟨"a", ⟨0, 0, 0, 0, 0⟩, 95⟩] : List HourlyRecord) ≠ []) ∧
    ((_summarize_device "a" [⟨"a", ⟨0, 0, 0, 0, 0⟩, 95⟩] 16 90
          1).overall_average_hours_per_day
        = specAverage (_summarize_device "a" [⟨"a", ⟨0, 0, 0, 0, 0⟩, 95⟩] 16 90 1).days ∧
      (_summarize_device "a" [⟨"a", ⟨0, 0, 0, 0, 0⟩, 95⟩] 16 90
          1).seven_day_average_hours_per_day
        = specAverage
            (recentOf (_summarize_device "a" [⟨"a", ⟨0, 0, 0, 0, 0⟩, 95⟩] 16 90 1).days) ∧
      ((¬ ∃ du ∈ (_summarize_device "a" [⟨"a", ⟨0, 0, 0, 0, 0⟩, 95⟩] 16 90 1).days,
          du.is_complete = true) →
        ((_summarize_device "a" [⟨"a", ⟨0, 0, 0, 0, 0⟩, 95⟩] 16 90
            1).overall_average_hours_per_day = 0 ∧
          (_summarize_device "a" [⟨"a", ⟨0, 0, 0, 0, 0⟩, 95⟩] 16 90
            1).seven_day_average_hours_per_day = 0 ∧
          (_summarize_device "a" [⟨"a", ⟨0, 0, 0, 0, 0⟩, 95⟩] 16 90 1).threshold_met
            = false))) :=
  ⟨by decide, c4_average_spec "a" [⟨"a", ⟨0, 0, 0, 0, 0⟩, 95⟩] 16 90 1 (by decide)⟩

theorem c5_group_max_tiebreak_witness :
    ((⟨"a", ⟨0, 3, 10, 0, 0⟩, 85⟩ : RawRecord)
        ∈ ([⟨"a", ⟨0, 3, 10, 0, 0⟩, 85⟩, ⟨"a", ⟨0, 3, 40, 0, 0⟩, 95⟩] : List RawRecord) ∧
      hkey ⟨"a", ⟨0, 3, 10, 0, 0⟩, 85⟩ = ("a", ⟨0, 3, 0, 0, 0⟩)) ∧
    (∃ pre r post,
      (([⟨"a", ⟨0, 3, 10, 0, 0⟩, 85⟩, ⟨"a", ⟨0, 3, 40, 0, 0⟩, 95⟩] : List RawRecord).filter
          (fun x => decide (hkey x = ("a", ⟨0, 3, 0, 0, 0⟩))) = pre ++ r :: post ∧
        (∀ x ∈ pre, x.temperature < r.temperature) ∧
        (∀ x ∈ post, x.temperature ≤ r.temperature) ∧
        (normalize_records
            [⟨"a", ⟨0, 3, 10, 0, 0⟩, 85⟩, ⟨"a", ⟨0, 3, 40, 0, 0⟩, 95⟩]).filter
          (fun h => decide ((h.device_id, h.hour) = ("a", ⟨0, 3, 0, 0, 0⟩)))
          = [toHourly r])) :=
  ⟨⟨by decide, by decide⟩,
    c5_group_max_tiebreak [⟨"a", ⟨0, 3, 10, 0, 0⟩, 85⟩, ⟨"a", ⟨0, 3, 40, 0, 0⟩, 95⟩]
      ("a", ⟨0, 3, 0, 0, 0⟩) ⟨"a", ⟨0, 3, 10, 0, 0⟩, 85⟩ (by decide) (by decide)⟩

theorem c6_day_classification_witness :
    ((⟨0, 1, [], 1, false⟩ : DailyUsage)
        ∈ (_summarize_device "a" [⟨"a", ⟨0, 0, 0, 0, 0⟩, 95⟩] 16 90 1).days) ∧
    ((⟨0, 1, [], 1, false⟩ : DailyUsage).hours_in_use
        = (([⟨"a", ⟨0, 0, 0, 0, 0⟩, 95⟩] : List HourlyRecord).filter
            (fun r => decide (dateOf r.hour = (⟨0, 1, [], 1, false⟩ : DailyUsage).day)
              && inUse 90 r)).length ∧
      List.Perm (⟨0, 1, [], 1, false⟩ : DailyUsage).below_threshold_hours
        ((([⟨"a", ⟨0, 0, 0, 0, 0⟩, 95⟩] : List HourlyRecord).filter
            (fun r => decide (dateOf r.hour = (⟨0, 1, [], 1, false⟩ : DailyUsage).day)
              && !inUse 90 r)).map (·.hour)) ∧
      (⟨0, 1, [], 1, false⟩ : DailyUsage).below_threshold_hours.Sorted Timestamp.le) :=
  ⟨by decide,
    c6_day_classification "a" [⟨"a", ⟨0, 0, 0, 0, 0⟩, 95⟩] 16 90 1
      ⟨0, 1, [], 1, false⟩ (by decide)⟩

theorem c10_seven_eq_overall_witness :
    (([⟨"a", ⟨0, 0, 0, 0, 0⟩, 95⟩] : List HourlyRecord) ≠ [] ∧ (0 : Int) < 3 ∧
        (3 : Int) ≤ 7) ∧
    ((_summarize_device "a" [⟨"a", ⟨0, 0, 0, 0, 0⟩, 95⟩] 16 90
          3).seven_day_average_hours_per_day
        = (_summarize_device "a" [⟨"a", ⟨0, 0, 0, 0, 0⟩, 95⟩] 16 90
          3).overall_average_hours_per_day ∧
      (_summarize_device "a" [⟨"a", ⟨0, 0, 0, 0, 0⟩, 95⟩] 16 90 3).complete_days_last_seven
        = (_summarize_device "a" [⟨"a", ⟨0, 0, 0, 0, 0⟩, 95⟩] 16 90
          3).complete_days_overall) :=
  ⟨⟨by decide, by decide, by decide⟩,
    c10_seven_eq_overall "a" [⟨"a", ⟨0, 0, 0, 0, 0⟩, 95⟩] 16 90 3 (by decide) (by decide)
      (by decide)⟩
